import Mathlib

/-!
# Verification of the AiBsCleaner analysis and caching core

Shallow embedding of the orchestration/caching subsystem of the AiBsCleaner
static analyzer, together with proofs of the specified properties.

The embedding covers:
* the inline-suppression engine (`analyzer/ignore.go`),
* the structural fingerprint (`computeFileHash` in `analyzer/analyzer.go`),
* the disk cache store (`cache/file_cache.go`: `SaveRawRecord`,
  `SaveFileRecord`, `GetFileRecord`),
* the in-memory hybrid LRU cache (`cache/hybrid_cache.go`),
* the orchestrator (`Analyze` / `checkCache` / `updateCache` / `cloneIssues`
  in `analyzer/analyzer.go`).

Go strings that are inspected character by character are modelled as `List
Char` (`GoStr`); strings used only as opaque keys are modelled as Lean
`String`.  Go slices of issue pointers are modelled as `List (Option Issue)`
(`none` is a nil pointer element).  Time stamps, aggregate statistics,
logging and file-system I/O do not influence any of the verified operations
and are omitted from the state; every branch that the modelled operations
take in the source is reproduced.
-/

namespace AiBsCleaner

/-- A Go string inspected character-wise, as its character list. -/
abbrev GoStr := List Char

/-- Model of `models.Issue` (models/issue.go).  `ty` is the rendered
`Type.String()` used by the suppression engine; timestamp fields
(`FixedAt`, `CreatedAt`, ...) are never read by the modelled operations
and are omitted. -/
structure Issue where
  id : String
  ty : GoStr
  line : Nat
  column : Nat
  message : GoStr
  suggestion : GoStr
  canBeFixed : Bool
deriving DecidableEq, Repr

/-! ## Go string helpers (strings.Split, strings.TrimSpace, ...) -/

/-- Characters treated as space by `strings.TrimSpace` (ASCII range). -/
def goIsSpaceB (c : Char) : Bool :=
  c = ' ' || c = '\t' || c = '\n' || c = '\x0d' || c = '\x0b' || c = '\x0c'

/-- Model of `strings.TrimSpace`. -/
def goTrimSpace (s : GoStr) : GoStr :=
  ((s.dropWhile goIsSpaceB).reverse.dropWhile goIsSpaceB).reverse

/-- Model of `strings.Split` with a one-character separator.  As in Go, the
result is never empty and empty fields are kept. -/
def splitOnChar (sep : Char) : GoStr → List GoStr
  | [] => [[]]
  | c :: cs =>
    match splitOnChar sep cs with
    | [] => [[c]]
    | g :: gs => if c = sep then [] :: g :: gs else (c :: g) :: gs

/-- Model of `strings.HasPrefix pat` applied to a string (first argument is
the pattern). -/
def startsWithB : GoStr → GoStr → Bool
  | [], _ => true
  | _ :: _, [] => false
  | p :: ps, c :: cs => p = c && startsWithB ps cs

/-- Model of `strings.Contains s pat` (substring test; first argument is the
pattern, second the string searched). -/
def containsSubB (pat : GoStr) : GoStr → Bool
  | [] => startsWithB pat []
  | c :: cs => startsWithB pat (c :: cs) || containsSubB pat cs

/-! ## Suppression engine (analyzer/ignore.go) -/

/-- Model of `ignoreRange`: one recorded suppression interval.  The empty
`issueType` means "all categories"; the type is stored both as the map key
and in the record in the source, so the map of range lists is flattened to
one list here (`ShouldIgnore` only asks whether some range under a given
key covers a line, which is insensitive to the grouping). -/
structure IgnoreRange where
  issueType : GoStr
  startLine : Nat
  endLine : Nat
deriving DecidableEq, Repr

/-- One comment of the parsed file: its starting line and its text after
`extractCommentText` (comment markers stripped, surrounding space trimmed). -/
structure GoComment where
  line : Nat
  text : GoStr
deriving DecidableEq, Repr

/-- Model of the parsed `ast.File` as the analysis core observes it: the
preorder sequence of node positions (`0` = `token.NoPos`) consumed by
`computeFileHash`, and the comments consumed by the suppression engine. -/
structure GoFile where
  nodePos : List Nat
  comments : List GoComment
deriving DecidableEq, Repr

/-- The loop-heuristic widening test of `processSpecificDirective`:
`strings.Contains(issueType, "_IN_LOOP") || strings.Contains(issueType, "LOOP_")`. -/
def loopWidening (t : GoStr) : Bool :=
  containsSubB "_IN_LOOP".toList t || containsSubB "LOOP_".toList t

/-- Model of `IgnoreChecker.processSpecificDirective` (analyzer/ignore.go).
Unknown directives produce no ranges. -/
def processSpecificDirective (directive : GoStr) (issueTypes : List GoStr)
    (line : Nat) : List IgnoreRange :=
  if directive = "abc:ignore-line".toList then
    issueTypes.map (fun t => ⟨goTrimSpace t, line, line⟩)
  else if directive = "abc:ignore-next-line".toList then
    issueTypes.map (fun t => ⟨goTrimSpace t, line + 1, line + 1⟩)
  else if directive = "abc:ignore-file".toList then
    issueTypes.map (fun t =>
      let t2 := if t = [] then "*".toList else t
      ⟨goTrimSpace t2, 0, 999999⟩)
  else if directive = "abc:ignore".toList then
    if issueTypes = [] then [⟨[], line + 1, line + 1⟩]
    else
      issueTypes.map (fun t =>
        let t2 := goTrimSpace t
        if loopWidening t2 then ⟨t2, line + 1, line + 10⟩
        else ⟨t2, line + 1, line + 1⟩)
  else []

/-- Model of `IgnoreChecker.processIgnoreDirective`: split the comment text
on spaces; a single field records a next-line all-categories range,
otherwise the first field is the directive and the second a comma-separated
category list (later fields are discarded, as in the source). -/
def processIgnoreDirective (text : GoStr) (line : Nat) : List IgnoreRange :=
  match splitOnChar ' ' text with
  | [] => []
  | [_] => [⟨[], line + 1, line + 1⟩]
  | directive :: arg1 :: _ =>
    processSpecificDirective directive (splitOnChar ',' arg1) line

/-- Model of `IgnoreChecker.parseIgnoreComments`: every comment whose text
starts with `abc:ignore` contributes its ranges. -/
def parseIgnoreComments (file : GoFile) : List IgnoreRange :=
  file.comments.foldl
    (fun acc c =>
      if startsWithB "abc:ignore".toList c.text then
        acc ++ processIgnoreDirective c.text c.line
      else acc)
    []

/-- Whether a recorded range covers a line. -/
def coversLine (line : Nat) (r : IgnoreRange) : Bool :=
  r.startLine ≤ line && line ≤ r.endLine

/-- Model of `IgnoreChecker.ShouldIgnore`: a line is suppressed for a
category when a range recorded under that exact category, under the empty
category, or under the wildcard `*` covers it. -/
def shouldIgnore (ranges : List IgnoreRange) (issueType : GoStr) (line : Nat) :
    Bool :=
  ((ranges.filter (fun r => r.issueType = issueType)).any (coversLine line)) ||
  ((ranges.filter (fun r => r.issueType = ([] : GoStr))).any (coversLine line)) ||
  ((ranges.filter (fun r => r.issueType = "*".toList)).any (coversLine line))

/-- The filtering loop of `FilterIssuesByComments`: nil issues are skipped
and suppressed issues dropped, order otherwise preserved. -/
def filterWithRanges (ranges : List IgnoreRange) :
    List (Option Issue) → List (Option Issue)
  | [] => []
  | o :: rest =>
    match o with
    | none => filterWithRanges ranges rest
    | some i =>
      if shouldIgnore ranges i.ty i.line then filterWithRanges ranges rest
      else some i :: filterWithRanges ranges rest

/-- Model of `FilterIssuesByComments` (analyzer/ignore.go).  `fsetPresent`
models the nil test on the `*token.FileSet` argument; a nil file or fileset
returns the input unchanged. -/
def filterIssuesByComments (issues : List (Option Issue)) (fsetPresent : Bool)
    (file : Option GoFile) : List (Option Issue) :=
  match file, fsetPresent with
  | none, _ => issues
  | some _, false => issues
  | some f, true => filterWithRanges (parseIgnoreComments f) issues

/-! ### Helper lemmas on the string utilities -/

theorem splitOnChar_ne_nil (sep : Char) (s : GoStr) : splitOnChar sep s ≠ [] := by
  cases s with
  | nil => simp [splitOnChar]
  | cons c cs =>
    simp only [splitOnChar]
    rcases h : splitOnChar sep cs with _ | ⟨g, gs⟩
    · simp
    · by_cases hc : c = sep <;> simp [hc]

theorem splitOnChar_of_not_mem (sep : Char) (s : GoStr) (h : sep ∉ s) :
    splitOnChar sep s = [s] := by
  induction s with
  | nil => rfl
  | cons c cs ih =>
    have hc : c ≠ sep := fun hcc => h (by simp [hcc])
    have hcs : sep ∉ cs := fun hm => h (List.mem_cons_of_mem _ hm)
    simp only [splitOnChar, ih hcs]
    simp [hc]

theorem splitOnChar_append (sep : Char) (xs ys : GoStr) (h : sep ∉ xs) :
    splitOnChar sep (xs ++ sep :: ys) = xs :: splitOnChar sep ys := by
  induction xs with
  | nil =>
    simp only [List.nil_append, splitOnChar]
    rcases hys : splitOnChar sep ys with _ | ⟨g, gs⟩
    · exact absurd hys (splitOnChar_ne_nil sep ys)
    · simp
  | cons x xs ih =>
    have hx : x ≠ sep := fun hxx => h (by simp [hxx])
    have hxs : sep ∉ xs := fun hm => h (List.mem_cons_of_mem _ hm)
    simp only [List.cons_append, splitOnChar]
    rw [List.append_eq, ih hxs]
    simp [hx]

theorem startsWithB_append (p xs ys : GoStr) (h : startsWithB p xs = true) :
    startsWithB p (xs ++ ys) = true := by
  induction p generalizing xs with
  | nil => rfl
  | cons a ps ih =>
    cases xs with
    | nil => simp [startsWithB] at h
    | cons x xs =>
      simp only [startsWithB, Bool.and_eq_true, decide_eq_true_eq] at h
      simp only [List.cons_append, startsWithB, Bool.and_eq_true,
        decide_eq_true_eq]
      exact ⟨h.1, ih xs h.2⟩

/-! ### C9: suppression idempotence -/

theorem filterWithRanges_idem (ranges : List IgnoreRange)
    (issues : List (Option Issue)) :
    filterWithRanges ranges (filterWithRanges ranges issues) =
      filterWithRanges ranges issues := by
  induction issues with
  | nil => rfl
  | cons o rest ih =>
    cases o with
    | none => simpa [filterWithRanges] using ih
    | some i =>
      by_cases h : shouldIgnore ranges i.ty i.line
      · simpa [filterWithRanges, h] using ih
      · simp [filterWithRanges, h, ih]

/-- C9: filtering an already-filtered diagnostic list with the same file
and fileset returns the identical list; no further diagnostics are removed
on the second pass. -/
theorem filterIssuesByComments_idem (issues : List (Option Issue))
    (fsetPresent : Bool) (file : Option GoFile) :
    filterIssuesByComments (filterIssuesByComments issues fsetPresent file)
        fsetPresent file =
      filterIssuesByComments issues fsetPresent file := by
  cases file with
  | none => rfl
  | some f =>
    cases fsetPresent with
    | false => rfl
    | true => exact filterWithRanges_idem _ issues

theorem shouldIgnore_singleton (r : IgnoreRange) (ty : GoStr) (line : Nat) :
    shouldIgnore [r] ty line =
      ((decide (r.issueType = ty) || decide (r.issueType = ([] : GoStr)) ||
        decide (r.issueType = "*".toList)) && coversLine line r) := by
  have hflt : ∀ p : IgnoreRange → Bool,
      (([r].filter p).any (coversLine line)) = (p r && coversLine line r) := by
    intro p
    cases hp : p r <;> simp [List.filter_cons, hp]
  simp only [shouldIgnore]
  rw [hflt, hflt, hflt]
  cases hc : coversLine line r <;>
    cases h1 : decide (r.issueType = ty) <;>
      cases h2 : decide (r.issueType = ([] : GoStr)) <;>
        cases h3 : decide (r.issueType = "*".toList) <;>
          simp [h1, h2, h3, hc]

/-! ### C8: suppression line-precision of ignore-next-line -/

/-- C8: a comment `abc:ignore-next-line Foo` on line `n` (for a category
name `Foo` without spaces or commas, already trimmed, and not matching the
loop-heuristic widening rule) records exactly the single-line range
`n+1..n+1` for `Foo`; the filter removes a category-`Foo` diagnostic at
line `n+1` and retains an otherwise identical one at line `n+2`. -/
theorem ignoreNextLine_precision (n : Nat) (foo : GoStr)
    (hsp : ' ' ∉ foo) (hcm : ',' ∉ foo) (htr : goTrimSpace foo = foo)
    (hlp : loopWidening foo = false)
    (i1 i2 : Issue) (hty1 : i1.ty = foo) (hty2 : i2.ty = foo)
    (hl1 : i1.line = n + 1) (hl2 : i2.line = n + 2) :
    parseIgnoreComments
        ⟨[], [⟨n, "abc:ignore-next-line ".toList ++ foo⟩]⟩ =
      [⟨foo, n + 1, n + 1⟩] ∧
    shouldIgnore [⟨foo, n + 1, n + 1⟩] foo (n + 1) = true ∧
    shouldIgnore [⟨foo, n + 1, n + 1⟩] foo (n + 2) = false ∧
    filterIssuesByComments [some i1, some i2] true
        (some ⟨[], [⟨n, "abc:ignore-next-line ".toList ++ foo⟩]⟩) =
      [some i2] := by
  have hlit : "abc:ignore-next-line ".toList =
      "abc:ignore-next-line".toList ++ [' '] := by decide
  have htext : "abc:ignore-next-line ".toList ++ foo =
      "abc:ignore-next-line".toList ++ ' ' :: foo := by
    rw [hlit, List.append_assoc]
    rfl
  have hpre : startsWithB "abc:ignore".toList
      ("abc:ignore-next-line ".toList ++ foo) = true := by
    apply startsWithB_append
    decide
  have hsplit : splitOnChar ' ' ("abc:ignore-next-line ".toList ++ foo) =
      ["abc:ignore-next-line".toList, foo] := by
    rw [htext, splitOnChar_append ' ' _ foo (by decide),
      splitOnChar_of_not_mem ' ' foo hsp]
  have harg : splitOnChar ',' foo = [foo] := splitOnChar_of_not_mem ',' foo hcm
  have hranges : parseIgnoreComments
      ⟨[], [⟨n, "abc:ignore-next-line ".toList ++ foo⟩]⟩ =
      [⟨foo, n + 1, n + 1⟩] := by
    simp only [parseIgnoreComments, List.foldl_cons, List.foldl_nil]
    rw [if_pos hpre]
    simp only [List.nil_append, processIgnoreDirective, hsplit, harg]
    simp only [processSpecificDirective]
    simp [htr]
  have hig1 : shouldIgnore [⟨foo, n + 1, n + 1⟩] foo (n + 1) = true := by
    rw [shouldIgnore_singleton]
    simp [coversLine]
  have hig2 : shouldIgnore [⟨foo, n + 1, n + 1⟩] foo (n + 2) = false := by
    rw [shouldIgnore_singleton]
    simp [coversLine]
  refine ⟨hranges, hig1, hig2, ?_⟩
  have h2 : shouldIgnore [⟨foo, n + 1, n + 1⟩] i2.ty i2.line = false := by
    rw [hty2, hl2]; exact hig2
  have h1 : shouldIgnore [⟨foo, n + 1, n + 1⟩] i1.ty i1.line = true := by
    rw [hty1, hl1]; exact hig1
  simp only [filterIssuesByComments]
  rw [hranges]
  simp [filterWithRanges, h1, h2]

/-- Witness for C8 at a concrete directive, category and diagnostics. -/
theorem ignoreNextLine_precision_witness :
    parseIgnoreComments
        ⟨[], [⟨5, "abc:ignore-next-line ".toList ++ "Foo".toList⟩]⟩ =
      [⟨"Foo".toList, 6, 6⟩] ∧
    shouldIgnore [⟨"Foo".toList, 6, 6⟩] "Foo".toList 6 = true ∧
    shouldIgnore [⟨"Foo".toList, 6, 6⟩] "Foo".toList 7 = false ∧
    filterIssuesByComments
        [some ⟨"i1", "Foo".toList, 6, 1, [], [], false⟩,
         some ⟨"i2", "Foo".toList, 7, 1, [], [], false⟩] true
        (some ⟨[], [⟨5, "abc:ignore-next-line ".toList ++ "Foo".toList⟩]⟩) =
      [some ⟨"i2", "Foo".toList, 7, 1, [], [], false⟩] :=
  ignoreNextLine_precision 5 "Foo".toList (by decide) (by decide) (by decide)
    (by decide)
    ⟨"i1", "Foo".toList, 6, 1, [], [], false⟩
    ⟨"i2", "Foo".toList, 7, 1, [], [], false⟩
    rfl rfl rfl rfl

/-! ### C10: bare ignore-file acts as next-line suppression -/

/-- C10: a comment whose trimmed text is exactly `abc:ignore-file` takes
the single-field branch of `processIgnoreDirective`, so it records the same
next-line all-categories range as bare `abc:ignore` and is not file-wide:
every category is suppressed on line `n+1` only, and a diagnostic on any
other line `m` is retained. -/
theorem ignoreFile_bare_is_next_line (n m : Nat) (ty : GoStr) (i1 i2 : Issue)
    (hm : m ≠ n + 1) (hl1 : i1.line = n + 1) (hl2 : i2.line = m) :
    parseIgnoreComments ⟨[], [⟨n, "abc:ignore-file".toList⟩]⟩ =
      parseIgnoreComments ⟨[], [⟨n, "abc:ignore".toList⟩]⟩ ∧
    parseIgnoreComments ⟨[], [⟨n, "abc:ignore-file".toList⟩]⟩ =
      [⟨[], n + 1, n + 1⟩] ∧
    shouldIgnore [⟨[], n + 1, n + 1⟩] ty (n + 1) = true ∧
    shouldIgnore [⟨[], n + 1, n + 1⟩] ty m = false ∧
    filterIssuesByComments [some i1, some i2] true
        (some ⟨[], [⟨n, "abc:ignore-file".toList⟩]⟩) = [some i2] := by
  have hranges : parseIgnoreComments ⟨[], [⟨n, "abc:ignore-file".toList⟩]⟩ =
      [⟨[], n + 1, n + 1⟩] := rfl
  have hranges2 : parseIgnoreComments ⟨[], [⟨n, "abc:ignore".toList⟩]⟩ =
      [⟨[], n + 1, n + 1⟩] := rfl
  have hig1 : ∀ t : GoStr, shouldIgnore [⟨[], n + 1, n + 1⟩] t (n + 1) = true := by
    intro t
    rw [shouldIgnore_singleton]
    simp [coversLine]
  have hig2 : ∀ t : GoStr, shouldIgnore [⟨[], n + 1, n + 1⟩] t m = false := by
    intro t
    rw [shouldIgnore_singleton]
    have : coversLine m ⟨[], n + 1, n + 1⟩ = false := by
      simp only [coversLine]
      by_cases h1 : n + 1 ≤ m
      · have h2 : ¬ m ≤ n + 1 := by omega
        simp [h2]
      · simp [h1]
    simp [this]
  refine ⟨hranges.trans hranges2.symm, hranges, hig1 ty, hig2 ty, ?_⟩
  have h1 : shouldIgnore [⟨[], n + 1, n + 1⟩] i1.ty i1.line = true := by
    rw [hl1]; exact hig1 _
  have h2 : shouldIgnore [⟨[], n + 1, n + 1⟩] i2.ty i2.line = false := by
    rw [hl2]; exact hig2 _
  simp only [filterIssuesByComments]
  rw [hranges]
  simp [filterWithRanges, h1, h2]

/-- Witness for C10 at a concrete line and diagnostics. -/
theorem ignoreFile_bare_is_next_line_witness :
    parseIgnoreComments ⟨[], [⟨3, "abc:ignore-file".toList⟩]⟩ =
      parseIgnoreComments ⟨[], [⟨3, "abc:ignore".toList⟩]⟩ ∧
    parseIgnoreComments ⟨[], [⟨3, "abc:ignore-file".toList⟩]⟩ =
      [⟨[], 4, 4⟩] ∧
    shouldIgnore [⟨[], 4, 4⟩] "X".toList 4 = true ∧
    shouldIgnore [⟨[], 4, 4⟩] "X".toList 9 = false ∧
    filterIssuesByComments
        [some ⟨"a", "X".toList, 4, 1, [], [], false⟩,
         some ⟨"b", "X".toList, 9, 1, [], [], false⟩] true
        (some ⟨[], [⟨3, "abc:ignore-file".toList⟩]⟩) =
      [some ⟨"b", "X".toList, 9, 1, [], [], false⟩] :=
  ignoreFile_bare_is_next_line 3 9 "X".toList
    ⟨"a", "X".toList, 4, 1, [], [], false⟩
    ⟨"b", "X".toList, 9, 1, [], [], false⟩
    (by decide) rfl rfl

/-! ## Disk cache store (cache/file_cache.go)

`Entry` and `FileRecord` mirror the source structs; the `Version`,
`IgnoredRules`, `Stats` and timestamp fields of `CacheData` are never read
by the operations under verification (statistics are recomputed write-only
aggregates, timestamps feed only the preload heuristic) and are omitted.
`saveUnsafe` (serialisation to disk) is the identity on the modelled state. -/

/-- Model of `cache.Entry`: the value type of the hybrid cache. -/
structure Entry where
  hash : String
  issues : List (Option Issue)
deriving DecidableEq, Repr

/-- Model of `cache.FileRecord` (path, fingerprint, diagnostics, ignored
issue IDs). -/
structure FileRecord where
  path : String
  hash : String
  issues : List (Option Issue)
  ignored : List String
deriving DecidableEq, Repr

/-- Model of `cache.CacheData`, restricted to the `Files` table. -/
structure CacheData where
  files : List FileRecord
deriving DecidableEq, Repr

/-- The record-removal loop shared by `SaveRawRecord` and `SaveFileRecord`:
delete the first record with the given path (Go `for ... break`). -/
def removeFirstRecord (p : String) : List FileRecord → List FileRecord
  | [] => []
  | r :: rs => if r.path = p then rs else r :: removeFirstRecord p rs

/-- Model of `FileCache.SaveRawRecord`: drops any existing record for the
key and appends a fresh record whose `Ignored` field is the empty list
(the source literally writes `Ignored: []string{}`). -/
def saveRawRecord (d : CacheData) (key : String) (entry : Entry) : CacheData :=
  ⟨removeFirstRecord key d.files ++ [⟨key, entry.hash, entry.issues, []⟩]⟩

/-- The ignored list captured from the first existing record for a path in
`SaveFileRecord` (defaults to empty when absent). -/
def oldIgnoredFor (d : CacheData) (p : String) : List String :=
  match d.files.find? (fun r => r.path = p) with
  | some r => r.ignored
  | none => []

/-- Model of `FileCache.SaveFileRecord`: replaces the record for the path,
carrying the previous record's `Ignored` list into the new record.  The
content hash computed by `CalculateFileHash` is passed in as `hash`. -/
def saveFileRecord (d : CacheData) (p : String) (hash : String)
    (issues : List (Option Issue)) : CacheData :=
  ⟨removeFirstRecord p d.files ++ [⟨p, hash, issues, oldIgnoredFor d p⟩]⟩

/-- Model of `FileCache.GetFileRecord`: first record with the given path
(the source returns a shallow copy of it; value semantics here, the
aliasing consequences are analysed separately below). -/
def getFileRecord (d : CacheData) (p : String) : Option FileRecord :=
  d.files.find? (fun r => r.path = p)

/-! ### Lemmas about record removal and lookup -/

theorem mem_removeFirstRecord {p : String} {r : FileRecord}
    {l : List FileRecord} (h : r ∈ removeFirstRecord p l) : r ∈ l := by
  induction l with
  | nil => simpa [removeFirstRecord] using h
  | cons s rs ih =>
    by_cases hs : s.path = p
    · simp only [removeFirstRecord, if_pos hs] at h
      exact List.mem_cons_of_mem _ h
    · simp only [removeFirstRecord, if_neg hs, List.mem_cons] at h
      rcases h with h | h
      · exact h ▸ List.mem_cons_self _ _
      · exact List.mem_cons_of_mem _ (ih h)

theorem path_not_mem_removeFirstRecord {p : String} {l : List FileRecord}
    (h : (l.map FileRecord.path).Nodup) :
    p ∉ (removeFirstRecord p l).map FileRecord.path := by
  induction l with
  | nil => simp [removeFirstRecord]
  | cons s rs ih =>
    simp only [List.map_cons, List.nodup_cons] at h
    by_cases hs : s.path = p
    · simp only [removeFirstRecord, if_pos hs]
      rw [← hs]
      exact h.1
    · simp only [removeFirstRecord, if_neg hs, List.map_cons, List.mem_cons]
      push_neg
      exact ⟨fun he => hs he.symm, ih h.2⟩

theorem removeFirstRecord_nodup {p : String} {l : List FileRecord}
    (h : (l.map FileRecord.path).Nodup) :
    ((removeFirstRecord p l).map FileRecord.path).Nodup := by
  induction l with
  | nil => simp [removeFirstRecord]
  | cons s rs ih =>
    simp only [List.map_cons, List.nodup_cons] at h
    by_cases hs : s.path = p
    · simpa [removeFirstRecord, hs] using h.2
    · simp only [removeFirstRecord, if_neg hs, List.map_cons, List.nodup_cons]
      refine ⟨fun hmem => ?_, ih h.2⟩
      rcases List.mem_map.mp hmem with ⟨r, hr, hrp⟩
      exact h.1 (List.mem_map.mpr ⟨r, mem_removeFirstRecord hr, hrp⟩)

theorem find?_append_left_none {α : Type} (l1 l2 : List α) (pred : α → Bool)
    (h : ∀ x ∈ l1, pred x = false) :
    (l1 ++ l2).find? pred = l2.find? pred := by
  induction l1 with
  | nil => rfl
  | cons a as ih =>
    have ha := h a (List.mem_cons_self _ _)
    simp only [List.cons_append, List.find?, ha]
    exact ih (fun x hx => h x (List.mem_cons_of_mem _ hx))

theorem getFileRecord_saveRawRecord (d : CacheData) (k : String) (e : Entry)
    (h : (d.files.map FileRecord.path).Nodup) :
    getFileRecord (saveRawRecord d k e) k = some ⟨k, e.hash, e.issues, []⟩ := by
  unfold getFileRecord saveRawRecord
  rw [find?_append_left_none]
  · simp [List.find?]
  · intro r hr
    have hne : r.path ≠ k := by
      intro heq
      exact path_not_mem_removeFirstRecord h
        (List.mem_map.mpr ⟨r, hr, heq⟩)
    simp [hne]

/-- Companion fact for the C3 divergence: `SaveFileRecord` (the path-based
save routine) does carry the previous ignored list into the new record. -/
theorem getFileRecord_saveFileRecord (d : CacheData) (p hsh : String)
    (issues : List (Option Issue)) (r : FileRecord)
    (hnd : (d.files.map FileRecord.path).Nodup)
    (hr : getFileRecord d p = some r) :
    getFileRecord (saveFileRecord d p hsh issues) p =
      some ⟨p, hsh, issues, r.ignored⟩ := by
  unfold getFileRecord saveFileRecord
  rw [find?_append_left_none]
  · simp only [List.find?]
    have : oldIgnoredFor d p = r.ignored := by
      unfold oldIgnoredFor
      rw [show d.files.find? (fun s => s.path = p) = some r from hr]
    simp [this]
  · intro s hs
    have hne : s.path ≠ p := by
      intro heq
      exact path_not_mem_removeFirstRecord hnd
        (List.mem_map.mpr ⟨s, hs, heq⟩)
    simp [hne]

/-! ### C3: re-analysis save wipes the persistent ignored list -/

/-- A disk cache holding one record for `a.go` with persistent ignored ID
`issue-1`. -/
def c3Disk : CacheData := ⟨[⟨"a.go", "h1", [], ["issue-1"]⟩]⟩

/-- C3 failing input: the record for `a.go` carries ignored list
`[issue-1]`, yet after `SaveRawRecord` (the save path used by the hybrid
cache when re-analysis results are flushed) the stored record's ignored
list is empty, contradicting the claim; `SaveFileRecord` by contrast does
preserve it, matching the source's own stated intent. -/
theorem saveRawRecord_drops_ignored :
    (getFileRecord c3Disk "a.go").map FileRecord.ignored = some ["issue-1"] ∧
    (getFileRecord (saveRawRecord c3Disk "a.go" ⟨"h2", []⟩) "a.go").map
        FileRecord.ignored = some [] ∧
    (getFileRecord (saveFileRecord c3Disk "a.go" "h2" []) "a.go").map
        FileRecord.ignored = some ["issue-1"] := by
  refine ⟨rfl, rfl, rfl⟩

/-! ## C6: aliasing through the shallow copy of GetFileRecord

The Go `GetFileRecord` returns `&recordCopy` where
`recordCopy := *record` is a field-for-field shallow copy: the copy is a
fresh `FileRecord` struct, but its `Issues` slice still holds the same
`*models.Issue` pointers as the stored record.  To reason about this we
model issue pointers as addresses into an issue heap and stored records as
addresses into a record heap. -/

/-- A `FileRecord` whose issues are pointers (heap addresses). -/
structure FileRecordRef where
  path : String
  hash : String
  issueAddrs : List Nat
  ignored : List String
deriving DecidableEq, Repr

/-- Heap update for issue pointers. -/
def writeIssueHeap (h : Nat → Issue) (a : Nat) (v : Issue) : Nat → Issue :=
  fun x => if x = a then v else h x

/-- Heap update for record pointers. -/
def writeRecHeap (h : Nat → FileRecordRef) (a : Nat) (v : FileRecordRef) :
    Nat → FileRecordRef :=
  fun x => if x = a then v else h x

/-- The disk cache with explicit heaps: `files` holds the addresses of the
stored records, `nextAddr` is the allocator frontier. -/
structure CacheWorld where
  recHeap : Nat → FileRecordRef
  issueHeap : Nat → Issue
  files : List Nat
  nextAddr : Nat

/-- Model of `GetFileRecord` over the heap model: find the stored record,
allocate a fresh record holding a field-for-field copy of it (`recordCopy
:= *record`), and return the fresh address. -/
def getFileRecordRef (w : CacheWorld) (p : String) : Option (Nat × CacheWorld) :=
  match w.files.find? (fun a => (w.recHeap a).path = p) with
  | some a =>
    some (w.nextAddr,
      { w with recHeap := writeRecHeap w.recHeap w.nextAddr (w.recHeap a),
               nextAddr := w.nextAddr + 1 })
  | none => none

/-- The cache's internally stored state for a path: the stored record's
issue list, dereferenced through the issue heap. -/
def storedIssueViews (w : CacheWorld) (p : String) : Option (List Issue) :=
  (w.files.find? (fun a => (w.recHeap a).path = p)).map
    (fun a => (w.recHeap a).issueAddrs.map w.issueHeap)

theorem find?_congr_on {α : Type} (l : List α) (p q : α → Bool)
    (h : ∀ a ∈ l, p a = q a) : l.find? p = l.find? q := by
  induction l with
  | nil => rfl
  | cons a as ih =>
    have ha := h a (List.mem_cons_self _ _)
    simp only [List.find?, ha]
    cases q a with
    | true => rfl
    | false => exact ih (fun x hx => h x (List.mem_cons_of_mem _ hx))

/-- C6 amended: the returned record is a genuine fresh shallow copy - its
contents equal the stored record's and mutating the returned record itself
never changes the stored state - but the copy shares the stored record's
issue addresses. -/
theorem getFileRecordRef_shallow_copy (w : CacheWorld) (p : String)
    (res : Nat × CacheWorld)
    (hfresh : ∀ a ∈ w.files, a < w.nextAddr)
    (hget : getFileRecordRef w p = some res) :
    (∀ v : FileRecordRef,
      storedIssueViews
          { res.2 with recHeap := writeRecHeap res.2.recHeap res.1 v } p =
        storedIssueViews res.2 p) ∧
    (∃ a ∈ w.files, (w.recHeap a).path = p ∧
      res.2.recHeap res.1 = w.recHeap a) := by
  unfold getFileRecordRef at hget
  rcases hfind : w.files.find? (fun a => (w.recHeap a).path = p) with _ | a
  · rw [hfind] at hget
    exact absurd hget (by simp)
  · rw [hfind] at hget
    have hres : res = (w.nextAddr,
        { w with recHeap := writeRecHeap w.recHeap w.nextAddr (w.recHeap a),
                 nextAddr := w.nextAddr + 1 }) := by
      exact (Option.some_inj.mp hget).symm
    subst hres
    have hmem : a ∈ w.files := List.mem_of_find?_eq_some hfind
    have hpa : (w.recHeap a).path = p := by
      have := List.find?_some hfind
      simpa using this
    have hagree : ∀ b ∈ w.files,
        writeRecHeap w.recHeap w.nextAddr (w.recHeap a) b = w.recHeap b := by
      intro b hb
      have : b ≠ w.nextAddr := Nat.ne_of_lt (hfresh b hb)
      simp [writeRecHeap, this]
    constructor
    · intro v
      have hagree2 : ∀ b ∈ w.files,
          writeRecHeap (writeRecHeap w.recHeap w.nextAddr (w.recHeap a))
              w.nextAddr v b =
            writeRecHeap w.recHeap w.nextAddr (w.recHeap a) b := by
        intro b hb
        have : b ≠ w.nextAddr := Nat.ne_of_lt (hfresh b hb)
        simp [writeRecHeap, this]
      unfold storedIssueViews
      simp only
      have hfeq : List.find?
          (fun b => decide ((writeRecHeap (writeRecHeap w.recHeap w.nextAddr
            (w.recHeap a)) w.nextAddr v b).path = p)) w.files =
          List.find? (fun b => decide ((writeRecHeap w.recHeap w.nextAddr
            (w.recHeap a) b).path = p)) w.files :=
        find?_congr_on _ _ _ (fun b hb => by rw [hagree2 b hb])
      rw [hfeq]
      cases hf2 : List.find? (fun b => decide ((writeRecHeap w.recHeap
          w.nextAddr (w.recHeap a) b).path = p)) w.files with
      | none => rfl
      | some b =>
        have hb : b ∈ w.files := List.mem_of_find?_eq_some hf2
        simp only [Option.map_some']
        rw [hagree2 b hb]
    · refine ⟨a, hmem, hpa, ?_⟩
      simp [writeRecHeap, hagree a hmem]

/-- Concrete stored issue, and its mutated version. -/
def c6IssueA : Issue := ⟨"ia", "X".toList, 1, 1, "old".toList, [], false⟩

/-- The mutated issue written through the shared pointer. -/
def c6IssueB : Issue := ⟨"ia", "X".toList, 1, 1, "mutated".toList, [], false⟩

/-- A cache world with one stored record at address 5, holding one issue at
address 0. -/
def c6World0 : CacheWorld :=
  { recHeap := fun _ => ⟨"a.go", "h", [0], []⟩,
    issueHeap := fun _ => c6IssueA,
    files := [5],
    nextAddr := 6 }

/-- The pair returned by `getFileRecordRef c6World0 "a.go"`. -/
def c6Returned : Nat × CacheWorld :=
  (6, { c6World0 with
          recHeap := writeRecHeap c6World0.recHeap 6 (c6World0.recHeap 5),
          nextAddr := 7 })

/-- C6 counterexample: it is not true that every mutation reachable from
the record returned by `GetFileRecord` leaves the cache's stored state
unchanged: writing through a shared issue address changes the stored
issues. -/
theorem getFileRecordRef_not_deep_copy :
    ¬ (∀ (w : CacheWorld) (p : String) (res : Nat × CacheWorld),
        getFileRecordRef w p = some res →
        ∀ (a : Nat) (v : Issue), a ∈ (res.2.recHeap res.1).issueAddrs →
          storedIssueViews
              { res.2 with issueHeap := writeIssueHeap res.2.issueHeap a v }
              p =
            storedIssueViews res.2 p) := by
  intro hclaim
  have h0 : getFileRecordRef c6World0 "a.go" = some c6Returned := rfl
  have hmem : 0 ∈ (c6Returned.2.recHeap c6Returned.1).issueAddrs := by
    simp [c6Returned, c6World0, writeRecHeap]
  have := hclaim c6World0 "a.go" c6Returned h0 0 c6IssueB hmem
  have hlhs : storedIssueViews
      { c6Returned.2 with
        issueHeap := writeIssueHeap c6Returned.2.issueHeap 0 c6IssueB }
      "a.go" = some [c6IssueB] := rfl
  have hrhs : storedIssueViews c6Returned.2 "a.go" = some [c6IssueA] := rfl
  rw [hlhs, hrhs] at this
  have hne : ([c6IssueB] : List Issue) ≠ [c6IssueA] := by decide
  exact hne (Option.some_inj.mp this)

/-- Witness for the amended C6 theorem at the concrete world. -/
theorem getFileRecordRef_shallow_copy_witness :
    (∀ v : FileRecordRef,
      storedIssueViews
          { c6Returned.2 with
            recHeap := writeRecHeap c6Returned.2.recHeap c6Returned.1 v }
          "a.go" =
        storedIssueViews c6Returned.2 "a.go") ∧
    (∃ a ∈ c6World0.files, (c6World0.recHeap a).path = "a.go" ∧
      c6Returned.2.recHeap c6Returned.1 = c6World0.recHeap a) :=
  getFileRecordRef_shallow_copy c6World0 "a.go" c6Returned (by decide) rfl

/-! ## Hybrid LRU cache (cache/hybrid_cache.go)

The LRU list is modelled front-first (`list.PushFront` = `List.cons`,
`list.Back` = `List.getLast?`).  The `memCache` map is modelled by its key
set `memKeys` (the map's values are the list nodes; the map/list bijection
is exactly the invariant verified below).  The dirty-key map is likewise a
key set.  `lastAccess` times, the background flush ticker and the
time-gated `preloadHotData` are omitted: no modelled operation reads them
(the verified properties quantify over arbitrary invariant-satisfying
states, so starting from a preloaded memory tier is covered). -/

/-- Model of `cacheItem` (key plus entry; `lastAccess` omitted). -/
structure CacheItem where
  key : String
  entry : Entry
deriving DecidableEq, Repr

/-- Model of `HybridCache`. -/
structure HybridCache where
  memKeys : List String
  lru : List CacheItem
  maxItems : Nat
  dirtyKeys : List String
  disk : CacheData
deriving DecidableEq, Repr

/-- Go map insert, on the key set. -/
def insertKey (k : String) (ks : List String) : List String :=
  if k ∈ ks then ks else k :: ks

/-- Go map delete, on the key set. -/
def eraseKey (k : String) (ks : List String) : List String :=
  ks.filter (fun x => x ≠ k)

/-- The list node designated by `memCache[k]`: under the map/list bijection
invariant, the unique LRU node with key `k`. -/
def findItem (k : String) (l : List CacheItem) : Option CacheItem :=
  l.find? (fun it => it.key = k)

/-- Removal of the node designated by `memCache[k]` from the LRU list. -/
def removeFirstItem (k : String) : List CacheItem → List CacheItem
  | [] => []
  | it :: rest => if it.key = k then rest else it :: removeFirstItem k rest

/-- Model of `HybridCache.evictOldest`: drop the LRU-tail node, remove its
key from the map, and when the key is dirty flush the entry to disk
(`flushItem` = `SaveRawRecord`) and clear its dirty mark. -/
def evictOldest (hc : HybridCache) : HybridCache :=
  match hc.lru.getLast? with
  | none => hc
  | some it =>
    if it.key ∈ hc.dirtyKeys then
      { hc with lru := hc.lru.dropLast,
                memKeys := eraseKey it.key hc.memKeys,
                dirtyKeys := eraseKey it.key hc.dirtyKeys,
                disk := saveRawRecord hc.disk it.key it.entry }
    else
      { hc with lru := hc.lru.dropLast,
                memKeys := eraseKey it.key hc.memKeys }

/-- Model of `HybridCache.addToMemCache`: evict when at capacity, then push
the new node at the front and index it. -/
def addToMemCache (k : String) (e : Entry) (hc : HybridCache) : HybridCache :=
  let hc1 := if hc.maxItems ≤ hc.lru.length then evictOldest hc else hc
  { hc1 with lru := ⟨k, e⟩ :: hc1.lru, memKeys := insertKey k hc1.memKeys }

/-- Model of `HybridCache.Put`: mark the key dirty; update-and-promote when
resident, insert otherwise. -/
def hcPut (k : String) (e : Entry) (hc : HybridCache) : HybridCache :=
  let hc1 := { hc with dirtyKeys := insertKey k hc.dirtyKeys }
  if k ∈ hc1.memKeys then
    { hc1 with lru := ⟨k, e⟩ :: removeFirstItem k hc1.lru }
  else
    addToMemCache k e hc1

/-- Model of `HybridCache.Get`: memory hit promotes the node; memory miss
falls through to the disk store and promotes a found record into memory. -/
def hcGet (k : String) (hc : HybridCache) : Option Entry × HybridCache :=
  if k ∈ hc.memKeys then
    match findItem k hc.lru with
    | some it =>
      (some it.entry,
        { hc with lru := ⟨it.key, it.entry⟩ :: removeFirstItem k hc.lru })
    | none => (none, hc)
  else
    match getFileRecord hc.disk k with
    | some r => (some ⟨r.hash, r.issues⟩, addToMemCache k ⟨r.hash, r.issues⟩ hc)
    | none => (none, hc)

/-- Model of `NewHybridCache` over an already-loaded disk table: a
non-positive capacity falls back to the default of 1000. -/
def newHybridCache (maxItems : Nat) (disk : CacheData) : HybridCache :=
  { memKeys := [], lru := [],
    maxItems := if maxItems = 0 then 1000 else maxItems,
    dirtyKeys := [], disk := disk }

/-- One external cache operation. -/
inductive HCOp where
  | put (k : String) (e : Entry) : HCOp
  | get (k : String) : HCOp

/-- Apply one operation. -/
def hcStep (hc : HybridCache) : HCOp → HybridCache
  | HCOp.put k e => hcPut k e hc
  | HCOp.get k => (hcGet k hc).2

/-- Run a sequence of operations. -/
def hcRun (ops : List HCOp) (hc : HybridCache) : HybridCache :=
  ops.foldl hcStep hc

/-- The structural invariant of the hybrid cache: the LRU list respects the
capacity, its keys are pairwise distinct, the `memCache` key set and the
LRU list are in bijection, and the disk table has one record per path. -/
structure HCInv (hc : HybridCache) : Prop where
  nodup : (hc.lru.map CacheItem.key).Nodup
  bij : ∀ k, k ∈ hc.memKeys ↔ k ∈ hc.lru.map CacheItem.key
  bound : hc.lru.length ≤ hc.maxItems
  capPos : 1 ≤ hc.maxItems
  diskNodup : (hc.disk.files.map FileRecord.path).Nodup

/-! ### Key-set and list helper lemmas -/

theorem mem_insertKey {k j : String} {ks : List String} :
    j ∈ insertKey k ks ↔ j = k ∨ j ∈ ks := by
  unfold insertKey
  by_cases h : k ∈ ks
  · simp only [if_pos h]
    constructor
    · exact Or.inr
    · rintro (rfl | hj)
      · exact h
      · exact hj
  · simp [if_neg h]

theorem mem_insertKey_self (k : String) (ks : List String) :
    k ∈ insertKey k ks :=
  mem_insertKey.mpr (Or.inl rfl)

theorem mem_eraseKey {k j : String} {ks : List String} :
    j ∈ eraseKey k ks ↔ j ∈ ks ∧ j ≠ k := by
  simp [eraseKey, List.mem_filter]

theorem not_mem_eraseKey_self (k : String) (ks : List String) :
    k ∉ eraseKey k ks := by
  intro h
  exact (mem_eraseKey.mp h).2 rfl

theorem mem_removeFirstItem {k : String} {it : CacheItem}
    {l : List CacheItem} (h : it ∈ removeFirstItem k l) : it ∈ l := by
  induction l with
  | nil => simpa [removeFirstItem] using h
  | cons s rest ih =>
    by_cases hs : s.key = k
    · simp only [removeFirstItem, if_pos hs] at h
      exact List.mem_cons_of_mem _ h
    · simp only [removeFirstItem, if_neg hs, List.mem_cons] at h
      rcases h with h | h
      · exact h ▸ List.mem_cons_self _ _
      · exact List.mem_cons_of_mem _ (ih h)

theorem key_not_mem_removeFirstItem {k : String} {l : List CacheItem}
    (h : (l.map CacheItem.key).Nodup) :
    k ∉ (removeFirstItem k l).map CacheItem.key := by
  induction l with
  | nil => simp [removeFirstItem]
  | cons s rest ih =>
    simp only [List.map_cons, List.nodup_cons] at h
    by_cases hs : s.key = k
    · simp only [removeFirstItem, if_pos hs]
      rw [← hs]
      exact h.1
    · simp only [removeFirstItem, if_neg hs, List.map_cons, List.mem_cons]
      push_neg
      exact ⟨fun he => hs he.symm, ih h.2⟩

theorem removeFirstItem_nodup {k : String} {l : List CacheItem}
    (h : (l.map CacheItem.key).Nodup) :
    ((removeFirstItem k l).map CacheItem.key).Nodup := by
  induction l with
  | nil => simp [removeFirstItem]
  | cons s rest ih =>
    simp only [List.map_cons, List.nodup_cons] at h
    by_cases hs : s.key = k
    · simpa [removeFirstItem, hs] using h.2
    · simp only [removeFirstItem, if_neg hs, List.map_cons, List.nodup_cons]
      refine ⟨fun hmem => ?_, ih h.2⟩
      rcases List.mem_map.mp hmem with ⟨r, hr, hrp⟩
      exact h.1 (List.mem_map.mpr ⟨r, mem_removeFirstItem hr, hrp⟩)

theorem mem_keys_removeFirstItem_of_ne {k j : String} {l : List CacheItem}
    (hne : j ≠ k) :
    j ∈ (removeFirstItem k l).map CacheItem.key ↔
      j ∈ l.map CacheItem.key := by
  induction l with
  | nil => simp [removeFirstItem]
  | cons s rest ih =>
    by_cases hs : s.key = k
    · simp only [removeFirstItem, if_pos hs, List.map_cons, List.mem_cons]
      constructor
      · exact Or.inr
      · rintro (rfl | hj)
        · exact absurd hs hne
        · exact hj
    · simp only [removeFirstItem, if_neg hs, List.map_cons, List.mem_cons, ih]

theorem removeFirstItem_length {k : String} {l : List CacheItem}
    (h : k ∈ l.map CacheItem.key) :
    (removeFirstItem k l).length + 1 = l.length := by
  induction l with
  | nil => simp at h
  | cons s rest ih =>
    by_cases hs : s.key = k
    · simp [removeFirstItem, hs]
    · simp only [List.map_cons, List.mem_cons] at h
      rcases h with h | h
      · exact absurd h.symm hs
      · simp only [removeFirstItem, if_neg hs, List.length_cons]
        rw [← ih h]

theorem eq_dropLast_append_getLast {α : Type} :
    ∀ {l : List α} {x : α}, l.getLast? = some x → l = l.dropLast ++ [x]
  | [], x, h => by simp at h
  | [a], x, h => by
    simp only [List.getLast?_singleton, Option.some_inj] at h
    simp [h]
  | a :: b :: t, x, h => by
    rw [List.getLast?_cons_cons] at h
    have := eq_dropLast_append_getLast h
    calc a :: b :: t = a :: ((b :: t).dropLast ++ [x]) := by rw [← this]
    _ = (a :: b :: t).dropLast ++ [x] := by simp [List.dropLast_cons₂]

/-! ### Invariant preservation -/

theorem saveRawRecord_nodup {d : CacheData} {k : String} {e : Entry}
    (h : (d.files.map FileRecord.path).Nodup) :
    ((saveRawRecord d k e).files.map FileRecord.path).Nodup := by
  unfold saveRawRecord
  simp only [List.map_append, List.map_cons, List.map_nil]
  rw [List.nodup_append]
  refine ⟨removeFirstRecord_nodup h, List.nodup_singleton _, ?_⟩
  intro p hp hq
  simp only [List.mem_singleton] at hq
  subst hq
  exact path_not_mem_removeFirstRecord h hp

theorem hcInv_evictOldest {hc : HybridCache} (h : HCInv hc) :
    HCInv (evictOldest hc) := by
  unfold evictOldest
  cases hlast : hc.lru.getLast? with
  | none => exact h
  | some it =>
    have hsplit : hc.lru = hc.lru.dropLast ++ [it] :=
      eq_dropLast_append_getLast hlast
    have hkeys : hc.lru.map CacheItem.key =
        hc.lru.dropLast.map CacheItem.key ++ [it.key] := by
      conv_lhs => rw [hsplit]
      simp
    have hnd : (hc.lru.dropLast.map CacheItem.key).Nodup ∧
        it.key ∉ hc.lru.dropLast.map CacheItem.key := by
      have := h.nodup
      rw [hkeys, List.nodup_append] at this
      refine ⟨this.1, fun hmem => ?_⟩
      exact this.2.2 hmem (List.mem_singleton_self _)
    have hbij : ∀ j, j ∈ eraseKey it.key hc.memKeys ↔
        j ∈ hc.lru.dropLast.map CacheItem.key := by
      intro j
      rw [mem_eraseKey, h.bij j, hkeys]
      constructor
      · rintro ⟨hj, hne⟩
        rcases List.mem_append.mp hj with hj | hj
        · exact hj
        · simp only [List.mem_singleton] at hj
          exact absurd hj hne
      · intro hj
        refine ⟨List.mem_append.mpr (Or.inl hj), fun he => ?_⟩
        exact hnd.2 (he ▸ hj)
    have hlen : hc.lru.dropLast.length ≤ hc.maxItems := by
      have := h.bound
      have h2 : hc.lru.dropLast.length ≤ hc.lru.length := by
        rw [List.length_dropLast]
        omega
      omega
    by_cases hd : it.key ∈ hc.dirtyKeys
    · simp only [if_pos hd]
      exact ⟨hnd.1, hbij, hlen, h.capPos, saveRawRecord_nodup h.diskNodup⟩
    · simp only [if_neg hd]
      exact ⟨hnd.1, hbij, hlen, h.capPos, h.diskNodup⟩

theorem evictOldest_maxItems (hc : HybridCache) :
    (evictOldest hc).maxItems = hc.maxItems := by
  unfold evictOldest
  cases hc.lru.getLast? with
  | none => rfl
  | some it => by_cases hd : it.key ∈ hc.dirtyKeys <;> simp [hd]

theorem evictOldest_length {hc : HybridCache} {it : CacheItem}
    (hlast : hc.lru.getLast? = some it) :
    (evictOldest hc).lru.length + 1 = hc.lru.length := by
  have hsplit : hc.lru = hc.lru.dropLast ++ [it] :=
    eq_dropLast_append_getLast hlast
  have hlen : hc.lru.dropLast.length + 1 = hc.lru.length := by
    conv_rhs => rw [hsplit]
    simp
  unfold evictOldest
  rw [hlast]
  by_cases hd : it.key ∈ hc.dirtyKeys <;> simpa [hd] using hlen

theorem evictOldest_not_mem {hc : HybridCache} {j : String}
    (hj : j ∉ hc.memKeys) : j ∉ (evictOldest hc).memKeys := by
  unfold evictOldest
  cases hc.lru.getLast? with
  | none => exact hj
  | some it =>
    by_cases hd : it.key ∈ hc.dirtyKeys <;>
      · simp only [hd, if_true, if_false]
        intro hmem
        exact hj (mem_eraseKey.mp hmem).1

theorem hcInv_addToMemCache {hc : HybridCache} {k : String} {e : Entry}
    (h : HCInv hc) (hk : k ∉ hc.memKeys) : HCInv (addToMemCache k e hc) := by
  unfold addToMemCache
  by_cases hcap : hc.maxItems ≤ hc.lru.length
  · simp only [if_pos hcap]
    have hne : hc.lru ≠ [] := by
      intro hnil
      rw [hnil] at hcap
      have := h.capPos
      simp at hcap
      omega
    have hlast : ∃ it, hc.lru.getLast? = some it := by
      cases hl : hc.lru.getLast? with
      | none => exact absurd (List.getLast?_eq_none_iff.mp hl) hne
      | some it => exact ⟨it, rfl⟩
    rcases hlast with ⟨it, hlast⟩
    have hev := hcInv_evictOldest h
    have hkev : k ∉ (evictOldest hc).memKeys := evictOldest_not_mem hk
    have hkl : k ∉ (evictOldest hc).lru.map CacheItem.key :=
      fun hm => hkev ((hev.bij k).mpr hm)
    refine ⟨?_, ?_, ?_, ?_, ?_⟩
    · rw [List.map_cons, List.nodup_cons]
      exact ⟨hkl, hev.nodup⟩
    · intro j
      simp only [mem_insertKey, List.map_cons, List.mem_cons]
      exact or_congr Iff.rfl (hev.bij j)
    · show ((⟨k, e⟩ : CacheItem) :: (evictOldest hc).lru).length ≤
        (evictOldest hc).maxItems
      rw [List.length_cons, evictOldest_maxItems]
      have h1 := evictOldest_length hlast
      have h2 := h.bound
      omega
    · show 1 ≤ (evictOldest hc).maxItems
      rw [evictOldest_maxItems]
      exact h.capPos
    · exact hev.diskNodup
  · simp only [if_neg hcap]
    have hkl : k ∉ hc.lru.map CacheItem.key := fun hm => hk ((h.bij k).mpr hm)
    refine ⟨?_, ?_, ?_, ?_, ?_⟩
    · rw [List.map_cons, List.nodup_cons]
      exact ⟨hkl, h.nodup⟩
    · intro j
      simp only [mem_insertKey, List.map_cons, List.mem_cons]
      exact or_congr Iff.rfl (h.bij j)
    · simp only [List.length_cons]
      omega
    · exact h.capPos
    · exact h.diskNodup

theorem hcInv_put {hc : HybridCache} (k : String) (e : Entry)
    (h : HCInv hc) : HCInv (hcPut k e hc) := by
  unfold hcPut
  by_cases hk : k ∈ hc.memKeys
  · simp only [hk, if_true]
    have hkl : k ∈ hc.lru.map CacheItem.key := (h.bij k).mp hk
    refine ⟨?_, ?_, ?_, ?_, ?_⟩
    · simp only [List.map_cons, List.nodup_cons]
      exact ⟨key_not_mem_removeFirstItem h.nodup, removeFirstItem_nodup h.nodup⟩
    · intro j
      simp only [List.map_cons, List.mem_cons]
      by_cases hj : j = k
      · subst hj
        simp [hk]
      · rw [mem_keys_removeFirstItem_of_ne hj]
        simpa [hj] using h.bij j
    · simp only [List.length_cons]
      rw [removeFirstItem_length hkl]
      exact h.bound
    · exact h.capPos
    · exact h.diskNodup
  · simp only [hk, if_false]
    exact hcInv_addToMemCache
      ⟨h.nodup, h.bij, h.bound, h.capPos, h.diskNodup⟩ hk

theorem hcInv_get {hc : HybridCache} (k : String) (h : HCInv hc) :
    HCInv ((hcGet k hc).2) := by
  unfold hcGet
  by_cases hk : k ∈ hc.memKeys
  · simp only [hk, if_true]
    cases hfind : findItem k hc.lru with
    | none => exact h
    | some it =>
      have hit : it.key = k := by
        have := List.find?_some hfind
        simpa using this
      have hkl : k ∈ hc.lru.map CacheItem.key := (h.bij k).mp hk
      refine ⟨?_, ?_, ?_, ?_, ?_⟩
      · simp only [List.map_cons, List.nodup_cons, hit]
        exact ⟨key_not_mem_removeFirstItem h.nodup,
          removeFirstItem_nodup h.nodup⟩
      · intro j
        simp only [List.map_cons, List.mem_cons, hit]
        by_cases hj : j = k
        · subst hj
          simp [hk]
        · rw [mem_keys_removeFirstItem_of_ne hj]
          simpa [hj] using h.bij j
      · simp only [List.length_cons]
        rw [removeFirstItem_length hkl]
        exact h.bound
      · exact h.capPos
      · exact h.diskNodup
  · simp only [hk, if_false]
    cases getFileRecord hc.disk k with
    | none => exact h
    | some r => exact hcInv_addToMemCache h hk

theorem hcInv_step {hc : HybridCache} (op : HCOp) (h : HCInv hc) :
    HCInv (hcStep hc op) := by
  cases op with
  | put k e => exact hcInv_put k e h
  | get k => exact hcInv_get k h

theorem hcInv_run (ops : List HCOp) {hc : HybridCache} (h : HCInv hc) :
    HCInv (hcRun ops hc) := by
  induction ops generalizing hc with
  | nil => exact h
  | cons op rest ih => exact ih (hcInv_step op h)

/-! ### Length accounting for the eviction bound -/

theorem addToMemCache_length {hc : HybridCache} (k : String) (e : Entry)
    (h : HCInv hc) :
    (addToMemCache k e hc).lru.length =
      min (hc.lru.length + 1) hc.maxItems := by
  unfold addToMemCache
  by_cases hcap : hc.maxItems ≤ hc.lru.length
  · simp only [if_pos hcap]
    have hlen : hc.lru.length = hc.maxItems := le_antisymm h.bound hcap
    have hne : hc.lru ≠ [] := by
      intro hnil
      rw [hnil] at hlen
      have := h.capPos
      simp at hlen
      omega
    obtain ⟨it, hlast⟩ : ∃ it, hc.lru.getLast? = some it := by
      cases hl : hc.lru.getLast? with
      | none => exact absurd (List.getLast?_eq_none_iff.mp hl) hne
      | some it => exact ⟨it, rfl⟩
    have h1 := evictOldest_length hlast
    show ((⟨k, e⟩ : CacheItem) :: (evictOldest hc).lru).length = _
    rw [List.length_cons]
    omega
  · simp only [if_neg hcap]
    show ((⟨k, e⟩ : CacheItem) :: hc.lru).length = _
    rw [List.length_cons]
    omega

theorem hcPut_length_fresh {hc : HybridCache} (k : String) (e : Entry)
    (h : HCInv hc) (hk : k ∉ hc.memKeys) :
    (hcPut k e hc).lru.length = min (hc.lru.length + 1) hc.maxItems := by
  unfold hcPut
  simp only [hk, if_false]
  exact addToMemCache_length k e
    ⟨h.nodup, h.bij, h.bound, h.capPos, h.diskNodup⟩

theorem hcPut_maxItems (hc : HybridCache) (k : String) (e : Entry) :
    (hcPut k e hc).maxItems = hc.maxItems := by
  unfold hcPut
  by_cases hk : k ∈ hc.memKeys
  · simp [hk]
  · simp only [hk, if_false]
    unfold addToMemCache
    by_cases hcap : hc.maxItems ≤ hc.lru.length
    · simp only [if_pos hcap]
      show (evictOldest _).maxItems = _
      rw [evictOldest_maxItems]
    · simp only [if_neg hcap]

theorem addToMemCache_not_mem {hc : HybridCache} {k j : String} {e : Entry}
    (hj : j ∉ hc.memKeys) (hjk : j ≠ k) :
    j ∉ (addToMemCache k e hc).memKeys := by
  unfold addToMemCache
  intro hmem
  by_cases hcap : hc.maxItems ≤ hc.lru.length
  · rw [if_pos hcap] at hmem
    rcases mem_insertKey.mp hmem with h1 | h1
    · exact hjk h1
    · exact evictOldest_not_mem hj h1
  · rw [if_neg hcap] at hmem
    rcases mem_insertKey.mp hmem with h1 | h1
    · exact hjk h1
    · exact hj h1

theorem hcPut_fresh_not_mem {hc : HybridCache} {k j : String} {e : Entry}
    (hj : j ∉ hc.memKeys) (hjk : j ≠ k) :
    j ∉ (hcPut k e hc).memKeys := by
  unfold hcPut
  by_cases hk : k ∈ hc.memKeys
  · simp only [hk, if_true]
    exact hj
  · simp only [hk, if_false]
    exact addToMemCache_not_mem hj hjk

theorem hcRun_puts_length (keys : List String) (e : Entry)
    (hc : HybridCache) (h : HCInv hc) (hnd : keys.Nodup)
    (hfresh : ∀ k ∈ keys, k ∉ hc.memKeys) :
    (hcRun (keys.map (fun j => HCOp.put j e)) hc).lru.length =
      min (hc.lru.length + keys.length) hc.maxItems := by
  induction keys generalizing hc with
  | nil =>
    have := h.bound
    simp only [List.map_nil, hcRun, List.foldl_nil, List.length_nil]
    omega
  | cons k ks ih =>
    have hk : k ∉ hc.memKeys := hfresh k (List.mem_cons_self _ _)
    have hnd2 := List.nodup_cons.mp hnd
    have hput : HCInv (hcPut k e hc) := hcInv_put k e h
    have hlen := hcPut_length_fresh k e h hk
    have hmax := hcPut_maxItems hc k e
    have hfresh2 : ∀ j ∈ ks, j ∉ (hcPut k e hc).memKeys := by
      intro j hj
      exact hcPut_fresh_not_mem (hfresh j (List.mem_cons_of_mem _ hj))
        (fun hje => hnd2.1 (hje ▸ hj))
    have hrun : hcRun ((k :: ks).map (fun j => HCOp.put j e)) hc =
        hcRun (ks.map (fun j => HCOp.put j e)) (hcPut k e hc) := by
      simp [hcRun, hcStep]
    rw [hrun, ih (hcPut k e hc) hput hnd2.2 hfresh2, hlen, hmax]
    have := h.bound
    simp only [List.length_cons]
    omega

theorem hcInv_new (cap : Nat) (d : CacheData)
    (hd : (d.files.map FileRecord.path).Nodup) :
    HCInv (newHybridCache cap d) := by
  refine ⟨by simp [newHybridCache], fun k => Iff.rfl,
    by simp [newHybridCache], ?_, hd⟩
  show 1 ≤ (if cap = 0 then 1000 else cap)
  by_cases hcap : cap = 0
  · simp [hcap]
  · rw [if_neg hcap]
    omega

/-! ### C5: LRU eviction bound and map/list bijection -/

/-- C5: after any sequence of Get and Put operations from a state
satisfying the cache invariant, the LRU list length never exceeds
`maxItems`, its keys are pairwise distinct, and the key map and the LRU
list hold exactly the same keys; moreover inserting `maxItems + k`
distinct keys into a fresh hybrid cache leaves exactly `maxItems` entries
resident in memory. -/
theorem lru_bound_and_bijection (ops : List HCOp) (hc : HybridCache)
    (h : HCInv hc) :
    ((hcRun ops hc).lru.length ≤ (hcRun ops hc).maxItems ∧
      ((hcRun ops hc).lru.map CacheItem.key).Nodup ∧
      (∀ k, k ∈ (hcRun ops hc).memKeys ↔
        k ∈ (hcRun ops hc).lru.map CacheItem.key)) ∧
    (∀ (keys : List String) (e : Entry) (cap : Nat) (d : CacheData),
      keys.Nodup → (d.files.map FileRecord.path).Nodup →
      (newHybridCache cap d).maxItems ≤ keys.length →
      (hcRun (keys.map (fun j => HCOp.put j e))
          (newHybridCache cap d)).lru.length =
        (newHybridCache cap d).maxItems) := by
  constructor
  · have hr := hcInv_run ops h
    exact ⟨hr.bound, hr.nodup, hr.bij⟩
  · intro keys e cap d hknd hdnd hge
    have hinv := hcInv_new cap d hdnd
    rw [hcRun_puts_length keys e _ hinv hknd
      (fun k hk => List.not_mem_nil k)]
    have h0 : (newHybridCache cap d).lru.length = 0 := rfl
    rw [h0]
    omega

/-- Witness state for C5: a capacity-2 cache, three distinct inserts and a
lookup. -/
def c5Ops : List HCOp :=
  [HCOp.put "a" ⟨"h1", []⟩, HCOp.put "b" ⟨"h2", []⟩,
   HCOp.put "c" ⟨"h3", []⟩, HCOp.get "a"]

/-- Witness for C5 at a concrete operation sequence on a fresh cache. -/
theorem lru_bound_and_bijection_witness :
    ((hcRun c5Ops (newHybridCache 2 ⟨[]⟩)).lru.length ≤
        (hcRun c5Ops (newHybridCache 2 ⟨[]⟩)).maxItems ∧
      ((hcRun c5Ops (newHybridCache 2 ⟨[]⟩)).lru.map CacheItem.key).Nodup ∧
      (∀ k, k ∈ (hcRun c5Ops (newHybridCache 2 ⟨[]⟩)).memKeys ↔
        k ∈ (hcRun c5Ops (newHybridCache 2 ⟨[]⟩)).lru.map CacheItem.key)) ∧
    (∀ (keys : List String) (e : Entry) (cap : Nat) (d : CacheData),
      keys.Nodup → (d.files.map FileRecord.path).Nodup →
      (newHybridCache cap d).maxItems ≤ keys.length →
      (hcRun (keys.map (fun j => HCOp.put j e))
          (newHybridCache cap d)).lru.length =
        (newHybridCache cap d).maxItems) :=
  lru_bound_and_bijection c5Ops (newHybridCache 2 ⟨[]⟩)
    ⟨by decide, fun k => Iff.rfl, by decide, by decide, by decide⟩

/-! ### C4: dirty entries are flushed to disk on eviction -/

theorem mem_dirty_addToMemCache {hc : HybridCache} {k : String} {e : Entry}
    (hbij : ∀ j, j ∈ hc.memKeys ↔ j ∈ hc.lru.map CacheItem.key)
    (hk : k ∉ hc.memKeys) (hd : k ∈ hc.dirtyKeys) :
    k ∈ (addToMemCache k e hc).dirtyKeys := by
  unfold addToMemCache
  by_cases hcap : hc.maxItems ≤ hc.lru.length
  · rw [if_pos hcap]
    show k ∈ (evictOldest hc).dirtyKeys
    unfold evictOldest
    cases hlast : hc.lru.getLast? with
    | none => exact hd
    | some it =>
      have hmem : it ∈ hc.lru := by
        rw [eq_dropLast_append_getLast hlast]
        exact List.mem_append.mpr (Or.inr (List.mem_singleton_self _))
      have hne : it.key ≠ k := by
        intro he
        exact hk ((hbij k).mpr (List.mem_map.mpr ⟨it, hmem, he⟩))
      by_cases hdd : it.key ∈ hc.dirtyKeys
      · simp only [if_pos hdd]
        show k ∈ eraseKey it.key hc.dirtyKeys
        exact mem_eraseKey.mpr ⟨hd, fun hkk => hne hkk.symm⟩
      · simp only [if_neg hdd]
        exact hd
  · rw [if_neg hcap]
    exact hd

/-- C4: an entry marked dirty by `Put` stays marked, and when a dirty
entry sits at the LRU tail, `evictOldest` leaves the disk store holding a
record for its key whose hash and issues equal the evicted entry's latest
value, while the key leaves the memory tier. -/
theorem dirty_flush_on_evict (hc : HybridCache) (k : String) (e : Entry)
    (h : HCInv hc) :
    k ∈ (hcPut k e hc).dirtyKeys ∧
    (∀ it : CacheItem, hc.lru.getLast? = some it → it.key ∈ hc.dirtyKeys →
      getFileRecord (evictOldest hc).disk it.key =
        some ⟨it.key, it.entry.hash, it.entry.issues, []⟩ ∧
      it.key ∉ (evictOldest hc).memKeys) := by
  constructor
  · unfold hcPut
    by_cases hk : k ∈ hc.memKeys
    · simp only [hk, if_true]
      exact mem_insertKey_self k hc.dirtyKeys
    · simp only [hk, if_false]
      exact mem_dirty_addToMemCache h.bij hk
        (mem_insertKey_self k hc.dirtyKeys)
  · intro it hlast hd
    unfold evictOldest
    rw [hlast]
    simp only [if_pos hd]
    exact ⟨getFileRecord_saveRawRecord hc.disk it.key it.entry h.diskNodup,
      not_mem_eraseKey_self _ _⟩

/-- Witness state for C4: a full capacity-1 cache holding a dirty entry. -/
def c4HC : HybridCache :=
  ⟨["k1"], [⟨"k1", ⟨"h1", []⟩⟩], 1, ["k1"], ⟨[]⟩⟩

/-- Witness for C4 at the concrete dirty cache. -/
theorem dirty_flush_on_evict_witness :
    "k2" ∈ (hcPut "k2" ⟨"h2", []⟩ c4HC).dirtyKeys ∧
    (∀ it : CacheItem, c4HC.lru.getLast? = some it →
      it.key ∈ c4HC.dirtyKeys →
      getFileRecord (evictOldest c4HC).disk it.key =
        some ⟨it.key, it.entry.hash, it.entry.issues, []⟩ ∧
      it.key ∉ (evictOldest c4HC).memKeys) :=
  dirty_flush_on_evict c4HC "k2" ⟨"h2", []⟩
    ⟨by decide, fun k => Iff.rfl, by decide, by decide, by decide⟩

/-! ## Structural fingerprint (computeFileHash, analyzer/analyzer.go)

`computeFileHash` streams, through a 64-bit FNV-1a hash, the decimal ASCII
rendering of every node's position (skipping `token.NoPos` = 0; the node
count still counts such nodes) followed by the decimal rendering of the
total node count, and renders the result in base 36. -/

/-- FNV-1a 64-bit offset basis. -/
def fnvOffset : Nat := 14695981039346656037

/-- FNV-1a 64-bit prime. -/
def fnvPrime : Nat := 1099511628211

/-- One byte of FNV-1a: xor then multiply, modulo 2^64. -/
def fnvStep (h b : Nat) : Nat := ((h ^^^ b) * fnvPrime) % (2 ^ 64)

/-- Hash a byte sequence (`hash.Hash64.Write`). -/
def fnvWrite (h : Nat) (bs : List Nat) : Nat := bs.foldl fnvStep h

/-- Base-10 digits of `n` (most significant first), fuelled recursion. -/
def decDigitsCore : Nat → Nat → List Nat
  | 0, _ => []
  | fuel + 1, n => if n = 0 then [] else decDigitsCore fuel (n / 10) ++ [n % 10]

/-- ASCII bytes of `strconv.AppendInt(_, n, 10)` for `n ≥ 0`. -/
def decBytes (n : Nat) : List Nat :=
  if n = 0 then [48] else (decDigitsCore (n + 1) n).map (fun d => 48 + d)

/-- The digit alphabet of `strconv.FormatUint(_, 36)`. -/
def base36Chars : List Char := "0123456789abcdefghijklmnopqrstuvwxyz".toList

/-- Base-36 digits of `n` (most significant first), fuelled recursion. -/
def toBase36Core : Nat → Nat → List Char
  | 0, _ => []
  | fuel + 1, n =>
    if n = 0 then []
    else toBase36Core fuel (n / 36) ++ [base36Chars.getD (n % 36) '0']

/-- Model of `strconv.FormatUint(h, 36)`. -/
def toBase36 (n : Nat) : String :=
  if n = 0 then "0" else String.mk (toBase36Core (n + 1) n)

/-- Model of `computeFileHash` (analyzer/analyzer.go). -/
def computeFileHash (file : GoFile) : String :=
  let h1 := file.nodePos.foldl
    (fun h pos => if pos ≠ 0 then fnvWrite h (decBytes pos) else h) fnvOffset
  toBase36 (fnvWrite h1 (decBytes file.nodePos.length))

/-! ## Orchestrator (Analyze, analyzer/analyzer.go)

`Analyze` is modelled over the hybrid cache (the `globalHybridCache ≠ nil`
path taken whenever `NewHybridCache` succeeded in `init`); the legacy
`AnalysisCache` is written but never read on that path and is omitted.
Rules are the registry entries: name plus analysis function.  The result
triple is (returned issue slice - `none` would be a nil slice, which
`Analyze` never returns -, names of the rules invoked, cache state). -/

/-- Model of `cloneIssues`: nil elements are dropped, the rest are copied
by value. -/
def cloneIssues (src : List (Option Issue)) : List (Option Issue) :=
  (src.filterMap id).map some

/-- The `enabledAnalyzers == nil || enabledAnalyzers[entry.name]` test. -/
def enabledFor (enabled : Option (List String)) (name : String) : Bool :=
  match enabled with
  | none => true
  | some l => l.contains name

/-- The rule loop of `Analyze`: run every enabled registry entry in order,
appending its diagnostics; also reports which rules were invoked. -/
def runRules (rules : List (String × (GoFile → List (Option Issue))))
    (enabled : Option (List String)) (file : GoFile) :
    List (Option Issue) × List String :=
  rules.foldl
    (fun acc r =>
      if enabledFor enabled r.1 then (acc.1 ++ r.2 file, acc.2 ++ [r.1])
      else acc)
    ([], [])

/-- Model of `checkCache`: hybrid-cache lookup, returning the cached clone
only when the stored hash equals the fresh fingerprint. -/
def checkCache (filename : String) (file : GoFile) (hc : HybridCache) :
    Option (List (Option Issue)) × HybridCache :=
  let hash := computeFileHash file
  let res := hcGet filename hc
  match res.1 with
  | some entry =>
    if entry.hash = hash then (some (cloneIssues entry.issues), res.2)
    else (none, res.2)
  | none => (none, res.2)

/-- Model of `updateCache`: store the fresh fingerprint with a clone of the
diagnostics. -/
def updateCache (filename : String) (file : GoFile)
    (issues : List (Option Issue)) (hc : HybridCache) : HybridCache :=
  hcPut filename ⟨computeFileHash file, cloneIssues issues⟩ hc

/-- Model of `Analyze`: nil tree short-circuits to an empty (non-nil)
list; a cache hit short-circuits all rule execution; otherwise the enabled
rules run in registration order and the merged result is cached. -/
def analyze (filename : String) (file : Option GoFile)
    (enabled : Option (List String))
    (rules : List (String × (GoFile → List (Option Issue))))
    (hc : HybridCache) :
    Option (List (Option Issue)) × List String × HybridCache :=
  match file with
  | none => (some [], [], hc)
  | some f =>
    let cc := checkCache filename f hc
    match cc.1 with
    | some cached => (some cached, [], cc.2)
    | none =>
      let ri := runRules rules enabled f
      (some ri.1, ri.2, updateCache filename f ri.1 cc.2)

/-! ### Clone and rule-output lemmas -/

theorem cloneIssues_eq_self {l : List (Option Issue)}
    (h : ∀ o ∈ l, o ≠ none) : cloneIssues l = l := by
  induction l with
  | nil => rfl
  | cons o rest ih =>
    cases o with
    | none => exact absurd rfl (h none (List.mem_cons_self _ _))
    | some a =>
      have := ih (fun o ho => h o (List.mem_cons_of_mem _ ho))
      simp only [cloneIssues, List.filterMap_cons, id, List.map_cons] at this ⊢
      rw [this]

theorem cloneIssues_noNone (l : List (Option Issue)) :
    ∀ o ∈ cloneIssues l, o ≠ none := by
  intro o ho
  rcases List.mem_map.mp ho with ⟨a, _, rfl⟩
  simp

theorem cloneIssues_idem (l : List (Option Issue)) :
    cloneIssues (cloneIssues l) = cloneIssues l :=
  cloneIssues_eq_self (cloneIssues_noNone l)

theorem runRulesAux_noNone (enabled : Option (List String)) (f : GoFile) :
    ∀ (rules : List (String × (GoFile → List (Option Issue))))
      (acc : List (Option Issue) × List String),
      (∀ r ∈ rules, ∀ g : GoFile, ∀ o ∈ r.2 g, o ≠ none) →
      (∀ o ∈ acc.1, o ≠ none) →
      ∀ o ∈ (rules.foldl
        (fun acc r =>
          if enabledFor enabled r.1 then (acc.1 ++ r.2 f, acc.2 ++ [r.1])
          else acc) acc).1, o ≠ none := by
  intro rules
  induction rules with
  | nil =>
    intro acc _ hacc
    simpa using hacc
  | cons r rs ih =>
    intro acc hr hacc
    simp only [List.foldl_cons]
    apply ih
    · intro r2 hr2
      exact hr r2 (List.mem_cons_of_mem _ hr2)
    · by_cases he : enabledFor enabled r.1 = true
      · rw [if_pos he]
        intro o ho
        rcases List.mem_append.mp ho with ho | ho
        · exact hacc o ho
        · exact hr r (List.mem_cons_self _ _) f o ho
      · rw [if_neg he]
        exact hacc

theorem runRules_noNone (rules : List (String × (GoFile → List (Option Issue))))
    (enabled : Option (List String)) (f : GoFile)
    (hr : ∀ r ∈ rules, ∀ g : GoFile, ∀ o ∈ r.2 g, o ≠ none) :
    ∀ o ∈ (runRules rules enabled f).1, o ≠ none :=
  runRulesAux_noNone enabled f rules ([], []) hr (by simp)

/-! ### Promotion lemmas: the touched key ends up at the LRU front -/

theorem hcPut_front (hc : HybridCache) (k : String) (e : Entry) :
    (∃ rest, (hcPut k e hc).lru = ⟨k, e⟩ :: rest) ∧
      k ∈ (hcPut k e hc).memKeys := by
  unfold hcPut
  by_cases hk : k ∈ hc.memKeys
  · rw [if_pos hk]
    exact ⟨⟨removeFirstItem k hc.lru, rfl⟩, hk⟩
  · rw [if_neg hk]
    unfold addToMemCache
    exact ⟨⟨_, rfl⟩, mem_insertKey_self _ _⟩

theorem hcGet_front_some {hc : HybridCache} {k : String} {e : Entry}
    {rest : List CacheItem} (hlru : hc.lru = ⟨k, e⟩ :: rest)
    (hm : k ∈ hc.memKeys) : (hcGet k hc).1 = some e := by
  unfold hcGet
  rw [if_pos hm]
  have hfind : findItem k hc.lru = some ⟨k, e⟩ := by
    rw [hlru]
    simp [findItem, List.find?]
  rw [hfind]

theorem hcGet_some_front {hc : HybridCache} {k : String} {e : Entry}
    (hg : (hcGet k hc).1 = some e) :
    ∃ rest, ((hcGet k hc).2).lru = ⟨k, e⟩ :: rest ∧
      k ∈ ((hcGet k hc).2).memKeys := by
  unfold hcGet at hg ⊢
  by_cases hk : k ∈ hc.memKeys
  · rw [if_pos hk] at hg ⊢
    cases hfind : findItem k hc.lru with
    | none =>
      rw [hfind] at hg
      simp at hg
    | some it =>
      rw [hfind] at hg
      have hkey : it.key = k := by
        have := List.find?_some hfind
        simpa using this
      have hent : it.entry = e := by
        simpa using hg
      exact ⟨removeFirstItem k hc.lru, by simp [hkey, hent], hk⟩
  · rw [if_neg hk] at hg ⊢
    cases hrec : getFileRecord hc.disk k with
    | none =>
      rw [hrec] at hg
      simp at hg
    | some r =>
      rw [hrec] at hg
      have hent : (⟨r.hash, r.issues⟩ : Entry) = e := by
        simpa using hg
      subst hent
      unfold addToMemCache
      exact ⟨_, rfl, mem_insertKey_self _ _⟩

/-! ### checkCache case lemmas -/

theorem checkCache_hit {hc : HybridCache} {f : String} {t : GoFile}
    {e : Entry} (hg : (hcGet f hc).1 = some e)
    (hh : e.hash = computeFileHash t) :
    checkCache f t hc = (some (cloneIssues e.issues), (hcGet f hc).2) := by
  unfold checkCache
  dsimp only
  rw [hg]
  simp only [if_pos hh]

theorem checkCache_miss_hash {hc : HybridCache} {f : String} {t : GoFile}
    {e : Entry} (hg : (hcGet f hc).1 = some e)
    (hh : e.hash ≠ computeFileHash t) :
    checkCache f t hc = (none, (hcGet f hc).2) := by
  unfold checkCache
  dsimp only
  rw [hg]
  simp only [if_neg hh]

theorem checkCache_spec (f : String) (t : GoFile) (hc : HybridCache) :
    (checkCache f t hc).2 = (hcGet f hc).2 ∧
    (∀ cached, (checkCache f t hc).1 = some cached →
      ∃ e, (hcGet f hc).1 = some e ∧ e.hash = computeFileHash t ∧
        cached = cloneIssues e.issues) := by
  cases hg : (hcGet f hc).1 with
  | none =>
    rw [show checkCache f t hc = (none, (hcGet f hc).2) from by
      unfold checkCache; dsimp only; rw [hg]]
    exact ⟨rfl, fun cached hcc => absurd hcc (by simp)⟩
  | some e =>
    by_cases hh : e.hash = computeFileHash t
    · rw [checkCache_hit hg hh]
      exact ⟨rfl, fun cached hcc =>
        ⟨e, rfl, hh, (Option.some_inj.mp hcc).symm⟩⟩
    · rw [checkCache_miss_hash hg hh]
      exact ⟨rfl, fun cached hcc => absurd hcc (by simp)⟩

theorem analyze_of_checkCache_some {f : String} {t : GoFile}
    {enabled : Option (List String)}
    {rules : List (String × (GoFile → List (Option Issue)))}
    {hc : HybridCache} {cached : List (Option Issue)}
    (hcc : (checkCache f t hc).1 = some cached) :
    analyze f (some t) enabled rules hc =
      (some cached, [], (checkCache f t hc).2) := by
  unfold analyze
  dsimp only
  rw [hcc]

theorem analyze_of_checkCache_none {f : String} {t : GoFile}
    {enabled : Option (List String)}
    {rules : List (String × (GoFile → List (Option Issue)))}
    {hc : HybridCache}
    (hcc : (checkCache f t hc).1 = none) :
    analyze f (some t) enabled rules hc =
      (some (runRules rules enabled t).1, (runRules rules enabled t).2,
        updateCache f t (runRules rules enabled t).1 (checkCache f t hc).2) := by
  unfold analyze
  dsimp only
  rw [hcc]

/-! ### The state left behind by one Analyze call -/

/-- After `analyze` on a present tree, the analysed file sits at the front
of the LRU with an entry whose hash is the tree's fingerprint; on the miss
path the entry holds a clone of the fresh rule output and that output is
the returned list, on the hit path the returned list is the clone of the
entry's issues. -/
theorem analyze_state_front (f : String) (t : GoFile)
    (enabled : Option (List String))
    (rules : List (String × (GoFile → List (Option Issue))))
    (hc : HybridCache) :
    ∃ e rest,
      ((analyze f (some t) enabled rules hc).2.2).lru = ⟨f, e⟩ :: rest ∧
      e.hash = computeFileHash t ∧
      f ∈ ((analyze f (some t) enabled rules hc).2.2).memKeys ∧
      ((analyze f (some t) enabled rules hc).1 =
          some (cloneIssues e.issues) ∨
        (e.issues = cloneIssues (runRules rules enabled t).1 ∧
          (analyze f (some t) enabled rules hc).1 =
            some (runRules rules enabled t).1)) := by
  have hspec := checkCache_spec f t hc
  cases hcc : (checkCache f t hc).1 with
  | some cached =>
    rw [analyze_of_checkCache_some hcc]
    rcases hspec.2 cached hcc with ⟨e, hg, hh, hcl⟩
    rcases hcGet_some_front hg with ⟨rest, hfront, hmem⟩
    refine ⟨e, rest, ?_, hh, ?_, Or.inl (by rw [hcl])⟩
    · show ((checkCache f t hc).2).lru = _
      rw [hspec.1]
      exact hfront
    · show f ∈ ((checkCache f t hc).2).memKeys
      rw [hspec.1]
      exact hmem
  | none =>
    rw [analyze_of_checkCache_none hcc]
    have hput := hcPut_front (checkCache f t hc).2 f
      ⟨computeFileHash t, cloneIssues (runRules rules enabled t).1⟩
    rcases hput.1 with ⟨rest, hfront⟩
    refine ⟨⟨computeFileHash t, cloneIssues (runRules rules enabled t).1⟩,
      rest, ?_, rfl, ?_, Or.inr ⟨rfl, rfl⟩⟩
    · show (updateCache f t (runRules rules enabled t).1
        ((checkCache f t hc).2)).lru = _
      unfold updateCache
      exact hfront
    · show f ∈ (updateCache f t (runRules rules enabled t).1
        ((checkCache f t hc).2)).memKeys
      unfold updateCache
      exact hput.2

/-! ### C7: a nil tree yields an empty, non-nil result -/

/-- C7: `Analyze` on an absent parse tree returns the empty, non-nil
diagnostic list (`some []`, never a nil slice), invokes no rule, leaves
the cache untouched, and - being a total function - propagates no
failure. -/
theorem analyze_nil_tree (filename : String)
    (enabled : Option (List String))
    (rules : List (String × (GoFile → List (Option Issue))))
    (hc : HybridCache) :
    analyze filename none enabled rules hc = (some [], [], hc) := rfl

/-! ### C1: cache coherency of repeated analysis -/

/-- C1: analysing the same tree twice under the same path, with rules that
honour the contract of returning proper (nil-free) diagnostic lists, makes
the second `Analyze` call return a list equal to the first call's result
while invoking no rule (it is served from the cache). -/
theorem analyze_cache_coherent (filename : String) (t : GoFile)
    (enabled : Option (List String))
    (rules : List (String × (GoFile → List (Option Issue))))
    (hc : HybridCache)
    (hrules : ∀ r ∈ rules, ∀ g : GoFile, ∀ o ∈ r.2 g, o ≠ none) :
    (analyze filename (some t) enabled rules
        (analyze filename (some t) enabled rules hc).2.2).1 =
      (analyze filename (some t) enabled rules hc).1 ∧
    (analyze filename (some t) enabled rules
        (analyze filename (some t) enabled rules hc).2.2).2.1 = [] := by
  rcases analyze_state_front filename t enabled rules hc with
    ⟨e, rest, hfront, hhash, hmem, hres⟩
  have hget2 : (hcGet filename
      (analyze filename (some t) enabled rules hc).2.2).1 = some e :=
    hcGet_front_some hfront hmem
  have hcc2 : (checkCache filename t
      (analyze filename (some t) enabled rules hc).2.2).1 =
      some (cloneIssues e.issues) := by
    rw [checkCache_hit hget2 hhash]
  have hclone : some (cloneIssues e.issues) =
      (analyze filename (some t) enabled rules hc).1 := by
    rcases hres with hres | ⟨hei, hres⟩
    · exact hres.symm
    · rw [hres, hei, cloneIssues_idem,
        cloneIssues_eq_self (runRules_noNone rules enabled t hrules)]
  rw [analyze_of_checkCache_some hcc2]
  exact ⟨hclone, rfl⟩

/-- A contract-abiding stub rule for the C1 witness: one diagnostic whose
line is the tree's node count. -/
def c1Rule : String × (GoFile → List (Option Issue)) :=
  ("loop", fun g => [some ⟨"c1", "LOOP".toList, g.nodePos.length, 1, [], [], false⟩])

/-- Witness for C1: a concrete double analysis through a fresh cache. -/
theorem analyze_cache_coherent_witness :
    (analyze "w.go" (some ⟨[7, 9], []⟩) none [c1Rule]
        (analyze "w.go" (some ⟨[7, 9], []⟩) none [c1Rule]
          (newHybridCache 4 ⟨[]⟩)).2.2).1 =
      (analyze "w.go" (some ⟨[7, 9], []⟩) none [c1Rule]
        (newHybridCache 4 ⟨[]⟩)).1 ∧
    (analyze "w.go" (some ⟨[7, 9], []⟩) none [c1Rule]
        (analyze "w.go" (some ⟨[7, 9], []⟩) none [c1Rule]
          (newHybridCache 4 ⟨[]⟩)).2.2).2.1 = [] :=
  analyze_cache_coherent "w.go" ⟨[7, 9], []⟩ none [c1Rule]
    (newHybridCache 4 ⟨[]⟩)
    (by
      intro r hr g o ho
      simp only [List.mem_singleton] at hr
      subst hr
      simp only [c1Rule, List.mem_singleton] at ho
      subst ho
      simp)

/-! ### C2: fingerprint collisions and invalidation -/

/-- A stub rule whose output depends on the tree, for the C2
counterexample: the diagnostic line is the first node position. -/
def c2Rule : String × (GoFile → List (Option Issue)) :=
  ("stub", fun g => [some ⟨"s", "X".toList, g.nodePos.headD 0, 1, [], [], false⟩])

/-- Tree with node positions 1 and 23. -/
def c2Tree1 : GoFile := ⟨[1, 23], []⟩

/-- Tree with node positions 12 and 3: every node's position changed, the
node count kept. -/
def c2Tree2 : GoFile := ⟨[12, 3], []⟩

/-- C2 counterexample: the two trees differ in node positions (same node
count), yet their fingerprints coincide - the hash streams the decimal
digit strings 1,23 and 12,3 identically - and the second `Analyze` call
returns the stale diagnostics cached for the first tree while invoking no
rule, although the rule's fresh output on the second tree would differ. -/
theorem fingerprint_collision_stale_reuse :
    c2Tree1.nodePos ≠ c2Tree2.nodePos ∧
    c2Tree1.nodePos.length = c2Tree2.nodePos.length ∧
    computeFileHash c2Tree1 = computeFileHash c2Tree2 ∧
    (analyze "a.go" (some c2Tree2) none [c2Rule]
        (analyze "a.go" (some c2Tree1) none [c2Rule]
          (newHybridCache 8 ⟨[]⟩)).2.2).1 =
      some (cloneIssues (c2Rule.2 c2Tree1)) ∧
    (analyze "a.go" (some c2Tree2) none [c2Rule]
        (analyze "a.go" (some c2Tree1) none [c2Rule]
          (newHybridCache 8 ⟨[]⟩)).2.2).2.1 = [] ∧
    c2Rule.2 c2Tree2 ≠ c2Rule.2 c2Tree1 := by
  refine ⟨by decide, rfl, rfl, rfl, rfl, by decide⟩

/-- C2 amended: whenever the fresh tree's fingerprint differs from the
fingerprint stored by the previous analysis of the same path, the next
`Analyze` call does not reuse the cached diagnostics: it re-runs every
enabled rule and returns their fresh output. -/
theorem invalidation_on_fingerprint_change (filename : String)
    (t t2 : GoFile) (enabled : Option (List String))
    (rules : List (String × (GoFile → List (Option Issue))))
    (hc : HybridCache)
    (hne : computeFileHash t2 ≠ computeFileHash t) :
    (analyze filename (some t2) enabled rules
        (analyze filename (some t) enabled rules hc).2.2).1 =
      some (runRules rules enabled t2).1 ∧
    (analyze filename (some t2) enabled rules
        (analyze filename (some t) enabled rules hc).2.2).2.1 =
      (runRules rules enabled t2).2 := by
  rcases analyze_state_front filename t enabled rules hc with
    ⟨e, rest, hfront, hhash, hmem, _⟩
  have hget2 : (hcGet filename
      (analyze filename (some t) enabled rules hc).2.2).1 = some e :=
    hcGet_front_some hfront hmem
  have hne2 : e.hash ≠ computeFileHash t2 := by
    rw [hhash]
    exact fun h => hne h.symm
  have hcc2 : (checkCache filename t2
      (analyze filename (some t) enabled rules hc).2.2).1 = none := by
    rw [checkCache_miss_hash hget2 hne2]
  rw [analyze_of_checkCache_none hcc2]
  exact ⟨rfl, rfl⟩

/-- Witness for the amended C2 at two trees with distinct fingerprints. -/
theorem invalidation_on_fingerprint_change_witness :
    (analyze "b.go" (some ⟨[2], []⟩) none [c2Rule]
        (analyze "b.go" (some ⟨[1], []⟩) none [c2Rule]
          (newHybridCache 4 ⟨[]⟩)).2.2).1 =
      some (runRules [c2Rule] none ⟨[2], []⟩).1 ∧
    (analyze "b.go" (some ⟨[2], []⟩) none [c2Rule]
        (analyze "b.go" (some ⟨[1], []⟩) none [c2Rule]
          (newHybridCache 4 ⟨[]⟩)).2.2).2.1 =
      (runRules [c2Rule] none ⟨[2], []⟩).2 :=
  invalidation_on_fingerprint_change "b.go" ⟨[1], []⟩ ⟨[2], []⟩ none
    [c2Rule] (newHybridCache 4 ⟨[]⟩) (by decide)

end AiBsCleaner
